import Mathlib

/-!
Verification of `tool/bump_version.py`: a semantic-version bump and changelog
utility.  Strings are modelled as `List Char`; each Python helper is embedded
as a Lean function over that representation.
-/

/-- Convert a string literal to the `List Char` representation used throughout. -/
def cl (s : String) : List Char := s.toList

/-- A commit is a (subject, body) pair, as produced by `_collect_commits`. -/
abbrev Commit := List Char × List Char

/-- Python `\s` on ASCII input: space, tab, newline, carriage return, form feed,
vertical tab. -/
def isPySpace (c : Char) : Bool :=
  c = ' ' || c = '\t' || c = '\n' || c = '\r' || c = '\x0c' || c = '\x0b'

/-- Python `str(n)` for a natural number: decimal digits via the same
fuel-based digit loop the runtime uses. -/
def natStr (n : Nat) : List Char := Nat.toDigits 10 n

/-- Python `int(s)` restricted to plain digit strings (the only shape this
tool ever feeds it): `none` when empty or containing a non-digit. -/
def parseNat (l : List Char) : Option Nat :=
  if l ≠ [] ∧ l.all Char.isDigit then
    some (l.foldl (fun acc c => acc * 10 + (c.toNat - 48)) 0)
  else none

/-- Python `s.split(".")`. -/
def splitDot : List Char → List (List Char)
  | [] => [[]]
  | c :: t =>
    if c = '.' then [] :: splitDot t
    else
      match splitDot t with
      | h :: r => (c :: h) :: r
      | [] => [[c]]

/-- `int(x) for x in current.split(".")` unpacked into exactly three fields;
`none` models the `ValueError` path. -/
def parseVersion (l : List Char) : Option (Nat × Nat × Nat) :=
  match splitDot l with
  | [x, y, z] =>
    match parseNat x, parseNat y, parseNat z with
    | some a, some b, some c => some (a, b, c)
    | _, _, _ => none
  | _ => none

/-- Python `f"{major}.{minor}.{patch}"`. -/
def verStr (a b c : Nat) : List Char :=
  natStr a ++ ('.' :: (natStr b ++ ('.' :: natStr c)))

/-- `_bump_version`: parse `current`, increment per `release_type`
(`"major"`, `"minor"`, anything else is treated as patch, as in the source). -/
def bumpVersion (current : List Char) (releaseType : List Char) : Option (List Char) :=
  match parseVersion current with
  | none => none
  | some (major, minor, patch) =>
    if releaseType = cl "major" then some (verStr (major + 1) 0 0)
    else if releaseType = cl "minor" then some (verStr major (minor + 1) 0)
    else some (verStr major minor (patch + 1))

/-- Does `hay` start with `pat`? -/
def listStarts (hay pat : List Char) : Bool :=
  match pat, hay with
  | [], _ => true
  | _ :: _, [] => false
  | p :: ps, h :: hs => p = h && listStarts hs ps

/-- Python `pat in hay` / `re.search` for a literal pattern: `pat` occurs as a
contiguous substring of `hay`. -/
def hasSub (pat hay : List Char) : Bool :=
  match hay with
  | [] => listStarts [] pat
  | _ :: t => listStarts hay pat || hasSub pat t

/-- `re.match(r"^feat(\(|:|!)", subject, re.IGNORECASE)`: the first four
characters are `feat` up to case, the fifth is `(`, `:` or `!`. -/
def featHead : List Char → Bool
  | c1 :: c2 :: c3 :: c4 :: c5 :: _ =>
    c1.toLower = 'f' && c2.toLower = 'e' && c3.toLower = 'a' && c4.toLower = 't' &&
    (c5 = '(' || c5 = ':' || c5 = '!')
  | _ => false

/-- The loop body of `_determine_bump`, with the running `level` accumulator.
`(subject ++ '\n' :: body).map Char.toUpper` is `f"{subject}\n{body}".upper()`. -/
def detLoop : List Commit → List Char → List Char
  | [], level => level
  | (subject, body) :: rest, level =>
    if hasSub (cl "!:") subject then cl "major"
    else if hasSub (cl "BREAKING CHANGE") ((subject ++ '\n' :: body).map Char.toUpper)
         || hasSub (cl "BREAKING-CHANGE") ((subject ++ '\n' :: body).map Char.toUpper) then
      cl "major"
    else if level ≠ cl "minor" ∧ featHead subject then detLoop rest (cl "minor")
    else detLoop rest level

/-- `_determine_bump(commits)`. -/
def determineBump (commits : List Commit) : List Char := detLoop commits (cl "patch")

/-- A commit that escalates the bump to major: subject contains `!:`, or the
upper-cased `subject\nbody` contains `BREAKING CHANGE` or `BREAKING-CHANGE`. -/
def commitBreaking (c : Commit) : Bool :=
  hasSub (cl "!:") c.1
  || hasSub (cl "BREAKING CHANGE") ((c.1 ++ '\n' :: c.2).map Char.toUpper)
  || hasSub (cl "BREAKING-CHANGE") ((c.1 ++ '\n' :: c.2).map Char.toUpper)

/-- A commit whose subject begins with a `feat` conventional-commit marker. -/
def commitFeat (c : Commit) : Bool := featHead c.1

lemma detLoop_characterization (commits : List Commit) (level : List Char) :
    detLoop commits level =
      if commits.any commitBreaking then cl "major"
      else if commits.any commitFeat then cl "minor"
      else level := by
  induction commits generalizing level with
  | nil => simp [detLoop]
  | cons c rest ih =>
    obtain ⟨subject, body⟩ := c
    by_cases h1 : hasSub (cl "!:") subject = true
    · have hb : commitBreaking (subject, body) = true := by
        simp [commitBreaking, h1]
      simp [detLoop, h1, hb]
    · by_cases h2 : (hasSub (cl "BREAKING CHANGE") ((subject ++ '\n' :: body).map Char.toUpper)
          || hasSub (cl "BREAKING-CHANGE") ((subject ++ '\n' :: body).map Char.toUpper)) = true
      · have hb : commitBreaking (subject, body) = true := by
          simp only [commitBreaking, Bool.or_eq_true] at h2 ⊢
          tauto
        simp only [detLoop, List.any_cons]
        rw [if_neg h1, if_pos h2, hb]
        simp
      · have hb : commitBreaking (subject, body) = false := by
          cases hcb : commitBreaking (subject, body)
          · rfl
          · exfalso
            simp only [commitBreaking, Bool.or_eq_true] at hcb
            simp only [Bool.or_eq_true] at h2
            tauto
        have hf2 : commitFeat (subject, body) = featHead subject := rfl
        by_cases hf : featHead subject = true
        · by_cases hl : level = cl "minor"
          · have hcond : ¬ (level ≠ cl "minor" ∧ featHead subject = true) := by
              intro hc; exact hc.1 hl
            simp only [detLoop, List.any_cons]
            rw [if_neg h1, if_neg h2, if_neg hcond, ih, hb]
            by_cases hB : rest.any commitBreaking = true <;>
              by_cases hF : rest.any commitFeat = true <;>
                simp [hB, hF, commitFeat, hf, hl]
          · have hcond : level ≠ cl "minor" ∧ featHead subject = true := ⟨hl, hf⟩
            simp only [detLoop, List.any_cons]
            rw [if_neg h1, if_neg h2, if_pos hcond, ih, hb]
            by_cases hB : rest.any commitBreaking = true <;>
              by_cases hF : rest.any commitFeat = true <;>
                simp [hB, hF, commitFeat, hf]
        · have hfl : featHead subject = false := by
            cases hx : featHead subject
            · rfl
            · exact absurd hx hf
          have hcond : ¬ (level ≠ cl "minor" ∧ featHead subject = true) := by
            intro hc; exact hf hc.2
          simp only [detLoop, List.any_cons]
          rw [if_neg h1, if_neg h2, if_neg hcond, ih, hb]
          by_cases hB : rest.any commitBreaking = true <;>
            by_cases hF : rest.any commitFeat = true <;>
              simp [hB, hF, commitFeat, hfl]

/-- C1: the bump classifier returns major exactly when some commit is breaking
(subject contains `!:`, or upper-cased subject+body contains `BREAKING CHANGE` or
`BREAKING-CHANGE`); otherwise minor exactly when some subject matches
`^feat(\(|:|!)` case-insensitively; otherwise patch.  The empty list yields
patch, and any list containing a subject with `!:` (such as `fix!:`) yields
major regardless of position. -/
theorem determineBump_spec (commits : List Commit) :
    determineBump commits =
      (if commits.any commitBreaking then cl "major"
       else if commits.any commitFeat then cl "minor"
       else cl "patch") ∧
    determineBump [] = cl "patch" ∧
    (∀ c ∈ commits, hasSub (cl "!:") c.1 = true → determineBump commits = cl "major") := by
  refine ⟨detLoop_characterization commits (cl "patch"), rfl, ?_⟩
  intro c hc hsub
  have hB : commits.any commitBreaking = true :=
    List.any_eq_true.mpr ⟨c, hc, by simp [commitBreaking, hsub]⟩
  unfold determineBump
  rw [detLoop_characterization, if_pos hB]

/-- Witness for `determineBump_spec`: a list with a `feat:` subject and a
`fix!:` subject classifies as major. -/
theorem determineBump_spec_witness :
    determineBump [(cl "feat: add X", []), (cl "fix!: y", [])] = cl "major" :=
  (determineBump_spec [(cl "feat: add X", []), (cl "fix!: y", [])]).2.2
    (cl "fix!: y", []) (by decide) (by decide)

lemma toDigitsCore_acc (fuel : Nat) : ∀ (n : Nat) (ds : List Char),
    Nat.toDigitsCore 10 fuel n ds = Nat.toDigitsCore 10 fuel n [] ++ ds := by
  induction fuel with
  | zero => intro n ds; rfl
  | succ f ih =>
    intro n ds
    simp only [Nat.toDigitsCore]
    by_cases h : n / 10 = 0
    · simp [h]
    · rw [if_neg h, if_neg h, ih (n / 10) (Nat.digitChar (n % 10) :: ds),
        ih (n / 10) [Nat.digitChar (n % 10)]]
      simp

lemma digitChar_spec (m : Nat) (h : m < 10) :
    (Nat.digitChar m).isDigit = true ∧ (Nat.digitChar m).toNat - 48 = m := by
  interval_cases m <;> exact ⟨by decide, by decide⟩

lemma toDigitsCore_spec (fuel : Nat) : ∀ n, n < fuel →
    (∀ c ∈ Nat.toDigitsCore 10 fuel n [], c.isDigit = true) ∧
    Nat.toDigitsCore 10 fuel n [] ≠ [] ∧
    ∀ acc, (Nat.toDigitsCore 10 fuel n []).foldl (fun a c => a * 10 + (c.toNat - 48)) acc
      = acc * 10 ^ (Nat.toDigitsCore 10 fuel n []).length + n := by
  induction fuel with
  | zero => intro n hn; omega
  | succ f ih =>
    intro n hn
    by_cases h : n / 10 = 0
    · have hn10 : n < 10 := by omega
      have e : Nat.toDigitsCore 10 (f + 1) n [] = [Nat.digitChar (n % 10)] := by
        simp [Nat.toDigitsCore, h]
      have hm : n % 10 = n := Nat.mod_eq_of_lt hn10
      rw [e]
      refine ⟨?_, by simp, ?_⟩
      · intro c hcm
        simp at hcm
        subst hcm
        exact (digitChar_spec (n % 10) (by omega)).1
      · intro acc
        simp only [List.foldl, List.length_cons, List.length_nil, pow_one, zero_add]
        rw [(digitChar_spec (n % 10) (by omega)).2, hm]
    · have hne : n ≠ 0 := fun h0 => h (by simp [h0])
      have hlt : n / 10 < n := Nat.div_lt_self (Nat.pos_of_ne_zero hne) (by norm_num)
      have hfuel : n / 10 < f := by omega
      have e : Nat.toDigitsCore 10 (f + 1) n []
          = Nat.toDigitsCore 10 f (n / 10) [] ++ [Nat.digitChar (n % 10)] := by
        simp only [Nat.toDigitsCore]
        rw [if_neg h, toDigitsCore_acc]
      obtain ⟨hdig, hne2, hval⟩ := ih (n / 10) hfuel
      rw [e]
      refine ⟨?_, by simp, ?_⟩
      · intro c hcm
        rcases List.mem_append.mp hcm with hcm | hcm
        · exact hdig c hcm
        · simp at hcm
          subst hcm
          exact (digitChar_spec (n % 10) (Nat.mod_lt n (by norm_num))).1
      · intro acc
        rw [List.foldl_append, hval acc]
        simp only [List.foldl, List.length_append, List.length_singleton]
        rw [(digitChar_spec (n % 10) (Nat.mod_lt n (by norm_num))).2]
        have : n = 10 * (n / 10) + n % 10 := (Nat.div_add_mod n 10).symm
        ring_nf
        omega

lemma natStr_spec (n : Nat) :
    (∀ c ∈ natStr n, c.isDigit = true) ∧ natStr n ≠ [] ∧ parseNat (natStr n) = some n := by
  have e : natStr n = Nat.toDigitsCore 10 (n + 1) n [] := rfl
  obtain ⟨hdig, hne, hval⟩ := toDigitsCore_spec (n + 1) n (Nat.lt_succ_self n)
  rw [e]
  refine ⟨hdig, hne, ?_⟩
  unfold parseNat
  rw [if_pos ⟨hne, List.all_eq_true.mpr hdig⟩]
  rw [hval 0]
  simp

lemma digit_ne_dot (c : Char) (h : c.isDigit = true) : c ≠ '.' := by
  intro he
  subst he
  exact absurd h (by decide)

lemma splitDot_append (a rest : List Char) (ha : ∀ c ∈ a, c ≠ '.') :
    splitDot (a ++ '.' :: rest) = a :: splitDot rest := by
  induction a with
  | nil => simp [splitDot]
  | cons x a ih =>
    have hx : x ≠ '.' := ha x (by simp)
    have ih2 := ih (fun c hc => ha c (by simp [hc]))
    simp only [List.cons_append, splitDot]
    rw [if_neg hx]
    rw [show a.append ('.' :: rest) = a ++ '.' :: rest from rfl, ih2]

lemma splitDot_single (a : List Char) (ha : ∀ c ∈ a, c ≠ '.') : splitDot a = [a] := by
  induction a with
  | nil => rfl
  | cons x a ih =>
    simp only [splitDot]
    rw [if_neg (ha x (by simp)), ih (fun c hc => ha c (by simp [hc]))]

lemma parseVersion_verStr (a b c : Nat) : parseVersion (verStr a b c) = some (a, b, c) := by
  unfold parseVersion verStr
  have hnd : ∀ n : Nat, ∀ ch ∈ natStr n, ch ≠ '.' :=
    fun n ch hm => digit_ne_dot ch ((natStr_spec n).1 ch hm)
  rw [splitDot_append (natStr a) _ (hnd a), splitDot_append (natStr b) _ (hnd b),
    splitDot_single (natStr c) (hnd c)]
  simp [(natStr_spec a).2.2, (natStr_spec b).2.2, (natStr_spec c).2.2]

lemma verStr_inj (a b c x y z : Nat) (h : verStr a b c = verStr x y z) :
    a = x ∧ b = y ∧ c = z := by
  have h1 := parseVersion_verStr a b c
  rw [h, parseVersion_verStr x y z] at h1
  simp at h1
  exact ⟨h1.1.symm, h1.2.1.symm, h1.2.2.symm⟩

lemma bumpVersion_eq (X Y Z : Nat) (rt : List Char) :
    bumpVersion (verStr X Y Z) rt =
      if rt = cl "major" then some (verStr (X + 1) 0 0)
      else if rt = cl "minor" then some (verStr X (Y + 1) 0)
      else some (verStr X Y (Z + 1)) := by
  unfold bumpVersion
  rw [parseVersion_verStr]

/-- C2: for every current version `X.Y.Z`, a patch bump yields `X.Y.(Z+1)`, a
minor bump yields `X.(Y+1).0`, and a major bump yields `(X+1).0.0`. -/
theorem bumpVersion_spec (X Y Z : Nat) :
    bumpVersion (verStr X Y Z) (cl "patch") = some (verStr X Y (Z + 1)) ∧
    bumpVersion (verStr X Y Z) (cl "minor") = some (verStr X (Y + 1) 0) ∧
    bumpVersion (verStr X Y Z) (cl "major") = some (verStr (X + 1) 0 0) := by
  refine ⟨?_, ?_, ?_⟩ <;> rw [bumpVersion_eq]
  · rw [if_neg (show ¬ (cl "patch" = cl "major") by decide),
      if_neg (show ¬ (cl "patch" = cl "minor") by decide)]
  · rw [if_neg (show ¬ (cl "minor" = cl "major") by decide), if_pos rfl]
  · rw [if_pos rfl]

/-- Strict lexicographic order on parsed versions. -/
def versionLt (x y : Nat × Nat × Nat) : Prop :=
  x.1 < y.1 ∨ (x.1 = y.1 ∧ (x.2.1 < y.2.1 ∨ (x.2.1 = y.2.1 ∧ x.2.2 < y.2.2)))

/-- C9: whatever the release type, the bumped version is strictly greater than
the current one in lexicographic order, and in particular its string differs. -/
theorem bumpVersion_increases (X Y Z : Nat) (rt newV : List Char)
    (h : bumpVersion (verStr X Y Z) rt = some newV) :
    (∃ A B C, newV = verStr A B C ∧ versionLt (X, Y, Z) (A, B, C)) ∧
    newV ≠ verStr X Y Z := by
  have finish : ∀ A B C, newV = verStr A B C → versionLt (X, Y, Z) (A, B, C) →
      (∃ A2 B2 C2, newV = verStr A2 B2 C2 ∧ versionLt (X, Y, Z) (A2, B2, C2)) ∧
      newV ≠ verStr X Y Z := by
    intro A B C hEq hLt
    refine ⟨⟨A, B, C, hEq, hLt⟩, ?_⟩
    intro hbad
    rw [hEq] at hbad
    obtain ⟨e1, e2, e3⟩ := verStr_inj A B C X Y Z hbad
    subst e1; subst e2; subst e3
    simp [versionLt] at hLt
  rw [bumpVersion_eq] at h
  by_cases h1 : rt = cl "major"
  · rw [if_pos h1] at h
    exact finish (X + 1) 0 0 (Option.some.inj h).symm (by simp [versionLt])
  · rw [if_neg h1] at h
    by_cases h2 : rt = cl "minor"
    · rw [if_pos h2] at h
      exact finish X (Y + 1) 0 (Option.some.inj h).symm (by simp [versionLt])
    · rw [if_neg h2] at h
      exact finish X Y (Z + 1) (Option.some.inj h).symm (by simp [versionLt])

/-- Witness for `bumpVersion_increases` at version 1.2.3 with a patch bump. -/
theorem bumpVersion_increases_witness :
    (∃ A B C, verStr 1 2 4 = verStr A B C ∧ versionLt (1, 2, 3) (A, B, C)) ∧
    verStr 1 2 4 ≠ verStr 1 2 3 :=
  bumpVersion_increases 1 2 3 (cl "patch") (verStr 1 2 4) (by decide)

/-- The literal `version:` of both manifest regexes. -/
def verKey : List Char := cl "version:"

/-- The part of the manifest regexes after the literal `version:`:
`\\s*` (greedy whitespace), then `[0-9]+\\.[0-9]+\\.[0-9]+` (greedy digit runs).
Returns (whitespace run, matched version digits, remainder) on success.  Since
`\\s`, `[0-9]` and `\\.` are pairwise disjoint, the greedy runs need no
backtracking and maximal-run splitting is exact. -/
def matchAfterColon (t : List Char) : Option (List Char × List Char × List Char) :=
  if (t.dropWhile isPySpace).takeWhile Char.isDigit = [] then none
  else
    match (t.dropWhile isPySpace).dropWhile Char.isDigit with
    | c2 :: t3 =>
      if c2 = '.' then
        if t3.takeWhile Char.isDigit = [] then none
        else
          match t3.dropWhile Char.isDigit with
          | c4 :: t5 =>
            if c4 = '.' then
              if t5.takeWhile Char.isDigit = [] then none
              else some (t.takeWhile isPySpace,
                (t.dropWhile isPySpace).takeWhile Char.isDigit
                  ++ ('.' :: (t3.takeWhile Char.isDigit
                    ++ ('.' :: t5.takeWhile Char.isDigit))),
                t5.dropWhile Char.isDigit)
            else none
          | [] => none
      else none
    | [] => none

/-- Attempt the pattern `version:\\s*([0-9]+\\.[0-9]+\\.[0-9]+)` at the head of
`l`.  Returns (group 1 = `version:` + whitespace, group 2 = digit version,
remainder after the match). -/
def tryMatch (l : List Char) : Option (List Char × List Char × List Char) :=
  if l.take 8 = verKey then
    (matchAfterColon (l.drop 8)).map (fun r => (verKey ++ r.1, r.2.1, r.2.2))
  else none

/-- Scan for the leftmost match of the `^`-anchored (MULTILINE) pattern: at
each position that begins the string or follows a newline, try the pattern.
Returns (text before the match, group 1, group 2, text after). -/
def findSub : List Char → Bool → Option (List Char × List Char × List Char × List Char)
  | [], _ => none
  | c :: cs, atStart =>
    match (if atStart then tryMatch (c :: cs) else none) with
    | some (g1, g2, rest) => some ([], g1, g2, rest)
    | none =>
      match findSub cs (c == '\n') with
      | some (pre, g1, g2, rest) => some (c :: pre, g1, g2, rest)
      | none => none

/-- `re.sub(r"(^version:\\s*)([0-9]+\\.[0-9]+\\.[0-9]+)", rf"\\g<1>{new_version}",
content, count=1, flags=re.MULTILINE)`: replace group 2 of the first match by
`newVersion`, keep everything else. -/
def subVersion (content newVersion : List Char) : List Char :=
  match findSub content true with
  | none => content
  | some (pre, g1, _, rest) => pre ++ (g1 ++ (newVersion ++ rest))

/-- The error kinds of §7 of the specification. -/
inductive RunError
  | commandExecution
  | manifestFormat
  | writeVerification
  | valueError
  deriving DecidableEq

/-- `_replace_version` on the file content: substitute, and raise (the
`WriteVerificationError` kind) when the substitution left the content
unchanged; only then is the file written. -/
def replaceVersion (content newVersion : List Char) : Except RunError (List Char) :=
  let updated := subVersion content newVersion
  if updated = content then Except.error RunError.writeVerification
  else Except.ok updated

/-- `re.search(r"^version:\\s*([0-9]+\\.[0-9]+\\.[0-9]+)", content, re.MULTILINE)`
followed by `.group(1)`: the digit version of the first match, if any. -/
def readVersion (content : List Char) : Option (List Char) :=
  match findSub content true with
  | none => none
  | some (_, _, g2, _) => some g2

/-- Python `str.strip()` on ASCII input. -/
def pyStrip (l : List Char) : List Char :=
  ((l.dropWhile isPySpace).reverse.dropWhile isPySpace).reverse

/-- Python `"\n".join(lines)`. -/
def joinNL : List (List Char) → List Char
  | [] => []
  | [x] => x
  | x :: y :: rest => x ++ '\n' :: joinNL (y :: rest)

/-- `_update_changelog` on contents: `prev` is the changelog file content
(`none` when the file does not exist).  Returns (new file content, entry).
Mirrors: bullets default to `No notable changes` on an empty commit list; the
joined entry lines are header, blank, bullets, trailing blank; the previous
content is `.strip()`-ped and appended after `"\n\n"` when non-empty, else a
single `"\n"` ends the file. -/
def updateChangelogContent (prev : Option (List Char)) (newVersion today : List Char)
    (commits : List Commit) : List Char × List Char :=
  let bullets := if commits.isEmpty then [cl "No notable changes"]
    else commits.map (fun c => c.1)
  let newEntry := joinNL ((cl "## " ++ newVersion ++ cl " - " ++ today) :: [] ::
    (bullets.map (fun b => cl "- " ++ b) ++ [[]]))
  let previous := match prev with
    | none => []
    | some p => pyStrip p
  (newEntry ++ (if previous = [] then ['\n'] else '\n' :: '\n' :: previous), newEntry)

/-- `_set_output(key, value)`: `outputPath` is the value of the sink
environment variable (`none` when unset).  Returns the text appended to the
sink file (empty when unset or empty path): `key=value\n` for single-line
values, a `key<<EOF` heredoc block for multi-line values. -/
def setOutput (outputPath : Option (List Char)) (key value : List Char) : List Char :=
  match outputPath with
  | none => []
  | some p =>
    if p = [] then []
    else if value.contains '\n' then key ++ (cl "<<EOF\n" ++ (value ++ cl "\nEOF\n"))
    else key ++ ('=' :: (value ++ ['\n']))

/-- The ambient state `main()` reads: manifest content, changelog content
(`none` when absent), output-sink environment variable, the commits collected
from version control, and today's date string. -/
structure World where
  pubspec : List Char
  changelog : Option (List Char)
  ghOutput : Option (List Char)
  commits : List Commit
  today : List Char

/-- The observable result of a run: final file contents, the text appended to
the output sink, the process exit code, and the error kind when the run
aborted. -/
structure Outcome where
  pubspec : List Char
  changelog : Option (List Char)
  sinkAppend : List Char
  exitCode : Nat
  errorMsg : Option RunError
  deriving DecidableEq

/-- `main()` after the current version has been read: skip on an empty commit
list, otherwise classify, bump, rewrite the manifest, rewrite the changelog,
and emit the three outputs.  An uncaught exception leaves both files as they
were at the point of failure and exits non-zero. -/
def mainContinue (w : World) (currentVersion : List Char) : Outcome :=
  if w.commits = [] then
    ⟨w.pubspec, w.changelog, setOutput w.ghOutput (cl "skip") (cl "true"), 0, none⟩
  else
    match bumpVersion currentVersion (determineBump w.commits) with
    | none => ⟨w.pubspec, w.changelog, [], 1, some RunError.valueError⟩
    | some newVersion =>
      match replaceVersion w.pubspec newVersion with
      | Except.error e => ⟨w.pubspec, w.changelog, [], 1, some e⟩
      | Except.ok newPubspec =>
        let r := updateChangelogContent w.changelog newVersion w.today w.commits
        ⟨newPubspec, some r.1,
          setOutput w.ghOutput (cl "skip") (cl "false")
            ++ setOutput w.ghOutput (cl "version") newVersion
            ++ setOutput w.ghOutput (cl "release_notes") r.2,
          0, none⟩

/-- `main()`: read the manifest version (abort with the `ManifestFormatError`
kind when no line matches), then continue the pipeline. -/
def mainRun (w : World) : Outcome :=
  match readVersion w.pubspec with
  | none => ⟨w.pubspec, w.changelog, [], 1, some RunError.manifestFormat⟩
  | some cur => mainContinue w cur

lemma getLast?_cons_ne_nil (c : Char) (t : List Char) (h : t ≠ []) :
    (c :: t).getLast? = t.getLast? := by
  cases t with
  | nil => exact absurd rfl h
  | cons a t2 => simp [List.getLast?_cons_cons]

lemma ne_nil_of_getLast? (l : List Char) (x : Char) (h : l.getLast? = some x) : l ≠ [] := by
  intro h0
  subst h0
  simp at h

lemma takeWhile_append_all (p : Char → Bool) (u w : List Char)
    (hu : ∀ c ∈ u, p c = true) (hw : w.takeWhile p = []) :
    (u ++ w).takeWhile p = u ∧ (u ++ w).dropWhile p = w := by
  induction u with
  | nil =>
    refine ⟨hw, ?_⟩
    cases w with
    | nil => rfl
    | cons a t =>
      rw [List.takeWhile_cons] at hw
      by_cases hp : p a = true
      · rw [if_pos hp] at hw
        exact absurd hw (by simp)
      · rw [List.nil_append, List.dropWhile_cons, if_neg hp]
  | cons x u ih =>
    have hx : p x = true := hu x (by simp)
    obtain ⟨h1, h2⟩ := ih (fun c hc => hu c (by simp [hc]))
    constructor
    · rw [List.cons_append, List.takeWhile_cons, if_pos hx, h1]
    · rw [List.cons_append, List.dropWhile_cons, if_pos hx, h2]

lemma takeWhile_append_mid (p : Char → Bool) (t s : List Char)
    (h : t.dropWhile p ≠ []) :
    (t ++ s).takeWhile p = t.takeWhile p ∧ (t ++ s).dropWhile p = t.dropWhile p ++ s := by
  induction t with
  | nil => exact absurd rfl h
  | cons x t ih =>
    by_cases hp : p x = true
    · have h2 : t.dropWhile p ≠ [] := by
        rw [List.dropWhile_cons, if_pos hp] at h
        exact h
      obtain ⟨i1, i2⟩ := ih h2
      constructor
      · rw [List.cons_append, List.takeWhile_cons, if_pos hp, i1,
          List.takeWhile_cons, if_pos hp]
      · rw [List.cons_append, List.dropWhile_cons, if_pos hp, i2,
          List.dropWhile_cons, if_pos hp]
    · constructor
      · rw [List.cons_append, List.takeWhile_cons, if_neg hp, List.takeWhile_cons, if_neg hp]
      · rw [List.cons_append, List.dropWhile_cons, if_neg hp, List.dropWhile_cons, if_neg hp,
          List.cons_append]

lemma dropWhile_eq_nil_all (p : Char → Bool) (t : List Char) (h : t.dropWhile p = []) :
    ∀ c ∈ t, p c = true := by
  induction t with
  | nil => intro c hc; simp at hc
  | cons x t ih =>
    rw [List.dropWhile_cons] at h
    by_cases hp : p x = true
    · rw [if_pos hp] at h
      intro c hc
      rcases List.mem_cons.mp hc with rfl | hc
      · exact hp
      · exact ih h c hc
    · rw [if_neg hp] at h
      exact absurd h (by simp)

lemma getLast?_dropWhile (p : Char → Bool) (t : List Char) (h : t.dropWhile p ≠ []) :
    (t.dropWhile p).getLast? = t.getLast? := by
  calc (t.dropWhile p).getLast?
      = (t.takeWhile p ++ t.dropWhile p).getLast? :=
        (List.getLast?_append_of_ne_nil _ h).symm
    _ = t.getLast? := by rw [List.takeWhile_append_dropWhile]

lemma takeWhile_nil_of_head (p : Char → Bool) (x : Char) (t : List Char) (hx : p x = false) :
    (x :: t).takeWhile p = [] := by
  rw [List.takeWhile_cons, if_neg (by simp [hx])]

lemma head_not_p_of_takeWhile_nil (p : Char → Bool) (x : Char) (t : List Char)
    (h : (x :: t).takeWhile p = []) : p x = false := by
  cases hp : p x
  · rfl
  · rw [List.takeWhile_cons, if_pos hp] at h
    exact absurd h (by simp)

lemma digit_not_space (c : Char) (h : c.isDigit = true) : isPySpace c = false := by
  cases hx : isPySpace c
  · rfl
  · exfalso
    simp only [isPySpace, Bool.or_eq_true, decide_eq_true_eq] at hx
    have hcases : c = ' ' ∨ c = '\t' ∨ c = '\n' ∨ c = '\r' ∨ c = '\x0c' ∨ c = '\x0b' := by
      tauto
    rcases hcases with h1 | h1 | h1 | h1 | h1 | h1 <;> (subst h1; exact absurd h (by decide))

lemma newline_not_digit : Char.isDigit '\n' = false := by decide

lemma matchAfterColon_some (t : List Char)
    (hd1 : (t.dropWhile isPySpace).takeWhile Char.isDigit ≠ [])
    (T3 : List Char) (hT2 : (t.dropWhile isPySpace).dropWhile Char.isDigit = '.' :: T3)
    (hd2 : T3.takeWhile Char.isDigit ≠ [])
    (T5 : List Char) (hT4 : T3.dropWhile Char.isDigit = '.' :: T5)
    (hd3 : T5.takeWhile Char.isDigit ≠ []) :
    matchAfterColon t = some (t.takeWhile isPySpace,
      (t.dropWhile isPySpace).takeWhile Char.isDigit
        ++ ('.' :: (T3.takeWhile Char.isDigit ++ ('.' :: T5.takeWhile Char.isDigit))),
      T5.dropWhile Char.isDigit) := by
  unfold matchAfterColon
  rw [if_neg hd1, hT2]
  simp [hd2, hT4, hd3, -List.takeWhile_eq_nil_iff]

lemma matchAfterColon_append_none (t s1 : List Char)
    (hlast : t.getLast? = some '\n')
    (hnone : matchAfterColon t = none) :
    matchAfterColon (t ++ 'v' :: s1) = none := by
  have hvd : Char.isDigit 'v' = false := by decide
  have hvs : isPySpace 'v' = false := by decide
  cases hT1 : t.dropWhile isPySpace with
  | nil =>
    have hall : ∀ c ∈ t, isPySpace c = true := dropWhile_eq_nil_all _ t hT1
    have hsw : ('v' :: s1).takeWhile isPySpace = [] := takeWhile_nil_of_head _ _ _ hvs
    obtain ⟨htk, hdr⟩ := takeWhile_append_all isPySpace t ('v' :: s1) hall hsw
    unfold matchAfterColon
    rw [hdr, takeWhile_nil_of_head Char.isDigit 'v' s1 hvd, if_pos rfl]
  | cons c1 T1t =>
    have hT1ne : t.dropWhile isPySpace ≠ [] := by rw [hT1]; simp
    obtain ⟨hmtk, hmdr⟩ := takeWhile_append_mid isPySpace t ('v' :: s1) hT1ne
    have hT1last : (t.dropWhile isPySpace).getLast? = some '\n' := by
      rw [getLast?_dropWhile _ _ hT1ne, hlast]
    by_cases hd1 : (t.dropWhile isPySpace).takeWhile Char.isDigit = []
    · have hc1 : Char.isDigit c1 = false := by
        apply head_not_p_of_takeWhile_nil Char.isDigit c1 T1t
        rw [← hT1]
        exact hd1
      unfold matchAfterColon
      rw [hmdr, hT1, List.cons_append, takeWhile_nil_of_head Char.isDigit c1 _ hc1, if_pos rfl]
    · have hT2ne : (t.dropWhile isPySpace).dropWhile Char.isDigit ≠ [] := by
        intro h0
        have hall := dropWhile_eq_nil_all Char.isDigit _ h0
        have hmem : '\n' ∈ t.dropWhile isPySpace := List.mem_of_mem_getLast? hT1last
        exact absurd (hall '\n' hmem) (by decide)
      obtain ⟨hdtk, hddr⟩ :=
        takeWhile_append_mid Char.isDigit (t.dropWhile isPySpace) ('v' :: s1) hT2ne
      have hT2last : ((t.dropWhile isPySpace).dropWhile Char.isDigit).getLast? = some '\n' := by
        rw [getLast?_dropWhile _ _ hT2ne, hT1last]
      unfold matchAfterColon
      rw [hmdr, hdtk, if_neg hd1, hddr]
      cases hT2 : (t.dropWhile isPySpace).dropWhile Char.isDigit with
      | nil => exact absurd hT2 hT2ne
      | cons c2 T3 =>
        rw [List.cons_append]
        by_cases hc2 : c2 = '.'
        case neg => simp [hc2]
        case pos =>
          subst hc2
          have hT2last2 : ('.' :: T3).getLast? = some '\n' := by
            rw [← hT2]
            exact hT2last
          have hT3ne : T3 ≠ [] := by
            intro h0
            subst h0
            simp at hT2last2
          have hT3last : T3.getLast? = some '\n' := by
            rw [← getLast?_cons_ne_nil '.' T3 hT3ne]
            exact hT2last2
          by_cases hd2 : T3.takeWhile Char.isDigit = []
          · obtain ⟨e, T3t, rfl⟩ : ∃ e T3t, T3 = e :: T3t := by
              cases T3 with
              | nil => exact absurd rfl hT3ne
              | cons e T3t => exact ⟨e, T3t, rfl⟩
            have he : Char.isDigit e = false := head_not_p_of_takeWhile_nil _ e T3t hd2
            have htk3 : (e :: (T3t ++ 'v' :: s1)).takeWhile Char.isDigit = [] :=
              takeWhile_nil_of_head _ _ _ he
            simp [htk3, -List.takeWhile_eq_nil_iff]
          · have hT4ne : T3.dropWhile Char.isDigit ≠ [] := by
              intro h0
              have hall := dropWhile_eq_nil_all Char.isDigit _ h0
              have hmem : '\n' ∈ T3 := List.mem_of_mem_getLast? hT3last
              exact absurd (hall '\n' hmem) (by decide)
            obtain ⟨h3tk, h3dr⟩ := takeWhile_append_mid Char.isDigit T3 ('v' :: s1) hT4ne
            have hT4last : (T3.dropWhile Char.isDigit).getLast? = some '\n' := by
              rw [getLast?_dropWhile _ _ hT4ne, hT3last]
            cases hT4 : T3.dropWhile Char.isDigit with
            | nil => exact absurd hT4 hT4ne
            | cons c4 T5 =>
              by_cases hc4 : c4 = '.'
              case neg =>
                simp [hd2, h3tk, h3dr, hT4, hc4, -List.takeWhile_eq_nil_iff]
              case pos =>
                subst hc4
                have hT4last2 : ('.' :: T5).getLast? = some '\n' := by
                  rw [← hT4]
                  exact hT4last
                have hT5ne : T5 ≠ [] := by
                  intro h0
                  subst h0
                  simp at hT4last2
                have hT5last : T5.getLast? = some '\n' := by
                  rw [← getLast?_cons_ne_nil '.' T5 hT5ne]
                  exact hT4last2
                by_cases hd3 : T5.takeWhile Char.isDigit = []
                · obtain ⟨e, T5t, rfl⟩ : ∃ e T5t, T5 = e :: T5t := by
                    cases T5 with
                    | nil => exact absurd rfl hT5ne
                    | cons e T5t => exact ⟨e, T5t, rfl⟩
                  have he : Char.isDigit e = false :=
                    head_not_p_of_takeWhile_nil _ e T5t hd3
                  have htk5 : (e :: (T5t ++ 'v' :: s1)).takeWhile Char.isDigit = [] :=
                    takeWhile_nil_of_head _ _ _ he
                  simp [hd2, h3tk, h3dr, hT4, htk5, -List.takeWhile_eq_nil_iff]
                · have hsome := matchAfterColon_some t hd1 T3 hT2 hd2 T5 hT4 hd3
                  rw [hnone] at hsome
                  exact absurd hsome (by simp)

lemma tryMatch_nil : tryMatch [] = none := by decide

lemma tryMatch_head (s g1 g2 rest : List Char) (h : tryMatch s = some (g1, g2, rest)) :
    ∃ s1, s = 'v' :: s1 := by
  unfold tryMatch at h
  by_cases h8 : s.take 8 = verKey
  · cases s with
    | nil =>
      rw [show ([] : List Char).take 8 = [] from rfl] at h8
      exact absurd h8 (by decide)
    | cons a s1 =>
      rw [show (a :: s1).take 8 = a :: s1.take 7 from rfl,
        show verKey = 'v' :: cl "ersion:" from by decide] at h8
      injection h8 with ha _
      exact ⟨s1, by rw [ha]⟩
  · rw [if_neg h8] at h
    exact absurd h (by simp)

lemma tryMatch_append_none (l : List Char)
    (hlast : l.getLast? = some '\n')
    (hnone : tryMatch l = none) (s1 : List Char) :
    tryMatch (l ++ 'v' :: s1) = none := by
  by_cases h8 : (l ++ 'v' :: s1).take 8 = verKey
  · by_cases hlen : 8 ≤ l.length
    · have e1 : (l ++ 'v' :: s1).take 8 = l.take 8 := List.take_append_of_le_length hlen
      have htake : l.take 8 = verKey := by rw [← e1]; exact h8
      have e2 : (l ++ 'v' :: s1).drop 8 = l.drop 8 ++ 'v' :: s1 :=
        List.drop_append_of_le_length hlen
      have htne : l.drop 8 ≠ [] := by
        intro h0
        have hl8 : l = verKey := by
          conv_lhs => rw [← List.take_append_drop 8 l]
          rw [h0, htake, List.append_nil]
        rw [hl8] at hlast
        exact absurd hlast (by decide)
      have htlast : (l.drop 8).getLast? = some '\n' := by
        rw [← hlast]
        conv_rhs => rw [← List.take_append_drop 8 l]
        exact (List.getLast?_append_of_ne_nil _ htne).symm
      have hmac : matchAfterColon (l.drop 8) = none := by
        unfold tryMatch at hnone
        rw [if_pos htake] at hnone
        cases hmc : matchAfterColon (l.drop 8) with
        | none => rfl
        | some r =>
          rw [hmc] at hnone
          simp at hnone
      unfold tryMatch
      rw [if_pos h8, e2, matchAfterColon_append_none (l.drop 8) s1 htlast hmac]
      rfl
    · push_neg at hlen
      have hlen2 : l.length ≤ 8 := by omega
      have e1 : (l ++ 'v' :: s1).take l.length = l := List.take_left l _
      have e4 := congrArg (List.take l.length) h8
      rw [List.take_take, Nat.min_eq_left hlen2, e1] at e4
      have hmem : '\n' ∈ l := List.mem_of_mem_getLast? hlast
      rw [e4] at hmem
      have hmem2 : '\n' ∈ verKey := List.take_subset _ _ hmem
      exact absurd hmem2 (by decide)
  · unfold tryMatch
    rw [if_neg h8]

lemma findSub_cons (c : Char) (cs : List Char) (flag : Bool) :
    findSub (c :: cs) flag =
      match (if flag then tryMatch (c :: cs) else none) with
      | some (g1, g2, rest) => some ([], g1, g2, rest)
      | none =>
        match findSub cs (c == '\n') with
        | some (pre, g1, g2, rest) => some (c :: pre, g1, g2, rest)
        | none => none := rfl

lemma findSub_cons_none (c : Char) (cs : List Char) (flag : Bool)
    (h : findSub (c :: cs) flag = none) :
    (flag = true → tryMatch (c :: cs) = none) ∧ findSub cs (c == '\n') = none := by
  rw [findSub_cons] at h
  by_cases hfl : flag = true
  · subst hfl
    rw [if_pos rfl] at h
    cases ht : tryMatch (c :: cs) with
    | some r =>
      obtain ⟨g1, g2, rest⟩ := r
      rw [ht] at h
      simp at h
    | none =>
      rw [ht] at h
      refine ⟨fun _ => rfl, ?_⟩
      cases hf2 : findSub cs (c == '\n') with
      | some r =>
        obtain ⟨pre, g1, g2, rest⟩ := r
        rw [hf2] at h
        simp at h
      | none => rfl
  · have hfl2 : flag = false := by
      cases flag
      · rfl
      · exact absurd rfl hfl
    subst hfl2
    rw [if_neg (by simp)] at h
    refine ⟨fun hx => absurd hx (by simp), ?_⟩
    cases hf2 : findSub cs (c == '\n') with
    | some r =>
      obtain ⟨pre, g1, g2, rest⟩ := r
      rw [hf2] at h
      simp at h
    | none => rfl

lemma findSub_append_match (pre : List Char) : ∀ (flag : Bool) (s g1 g2 rest : List Char),
    (pre = [] → flag = true) →
    (pre ≠ [] → pre.getLast? = some '\n') →
    findSub pre flag = none →
    tryMatch s = some (g1, g2, rest) →
    findSub (pre ++ s) flag = some (pre, g1, g2, rest) := by
  induction pre with
  | nil =>
    intro flag s g1 g2 rest hflag _ _ hs
    have hf : flag = true := hflag rfl
    subst hf
    obtain ⟨s1, rfl⟩ := tryMatch_head s g1 g2 rest hs
    rw [List.nil_append, findSub_cons, if_pos rfl, hs]
  | cons c pre ih =>
    intro flag s g1 g2 rest _ hlast hnone hs
    have hlast2 : (c :: pre).getLast? = some '\n' := hlast (by simp)
    obtain ⟨htm, hrec⟩ := findSub_cons_none c pre flag hnone
    obtain ⟨s1, rfl⟩ := tryMatch_head s g1 g2 rest hs
    have hstep : findSub (pre ++ 'v' :: s1) (c == '\n') = some (pre, g1, g2, rest) := by
      apply ih (c == '\n') ('v' :: s1) g1 g2 rest _ _ hrec hs
      · intro h0
        subst h0
        simp at hlast2
        rw [hlast2]
        simp
      · intro hne
        rwa [getLast?_cons_ne_nil c pre hne] at hlast2
    rw [List.cons_append, findSub_cons]
    by_cases hfl : flag = true
    · subst hfl
      rw [if_pos rfl]
      have h9 : tryMatch (c :: (pre ++ 'v' :: s1)) = none := by
        rw [← List.cons_append]
        exact tryMatch_append_none (c :: pre) hlast2 (htm rfl) s1
      rw [h9, hstep]
    · have hfl2 : flag = false := by
        cases flag
        · rfl
        · exact absurd rfl hfl
      subst hfl2
      rw [if_neg (by simp), hstep]

lemma getLast?_cons_isSome (x : Char) (y : List Char) : ∃ ch, (x :: y).getLast? = some ch := by
  induction y generalizing x with
  | nil => exact ⟨x, rfl⟩
  | cons z w ih =>
    obtain ⟨ch, hch⟩ := ih z
    exact ⟨ch, by rw [List.getLast?_cons_cons]; exact hch⟩

def flagAfter (a : List Char) (flag : Bool) : Bool :=
  match a.getLast? with
  | some ch => ch == '\n'
  | none => flag

lemma findSub_split_none (a : List Char) : ∀ (b : List Char) (flag : Bool),
    findSub (a ++ b) flag = none → findSub b (flagAfter a flag) = none := by
  induction a with
  | nil =>
    intro b flag h
    simpa [flagAfter] using h
  | cons c a ih =>
    intro b flag h
    rw [List.cons_append] at h
    obtain ⟨_, hrec⟩ := findSub_cons_none c (a ++ b) flag h
    have := ih b (c == '\n') hrec
    have hfa : flagAfter (c :: a) flag = flagAfter a (c == '\n') := by
      cases a with
      | nil => simp [flagAfter]
      | cons x y =>
        unfold flagAfter
        rw [getLast?_cons_ne_nil c (x :: y) (by simp)]
        obtain ⟨ch, hch⟩ := getLast?_cons_isSome x y
        rw [hch]
    rw [hfa]
    exact this

lemma dropWhile_eq_self_of_takeWhile_nil (p : Char → Bool) (l : List Char)
    (h : l.takeWhile p = []) : l.dropWhile p = l := by
  have e : l.takeWhile p ++ l.dropWhile p = l := List.takeWhile_append_dropWhile p l
  rw [h] at e
  simpa using e

lemma natStr_head_digit (n : Nat) : ∃ a0 A1, natStr n = a0 :: A1 ∧ Char.isDigit a0 = true := by
  cases hx : natStr n with
  | nil => exact absurd hx (natStr_spec n).2.1
  | cons a0 A1 =>
    refine ⟨a0, A1, rfl, ?_⟩
    apply (natStr_spec n).1
    rw [hx]
    simp

lemma tryMatch_versionLine (a b c : Nat) (post : List Char)
    (hpost : post.takeWhile Char.isDigit = []) :
    tryMatch (cl "version: " ++ (verStr a b c ++ post))
      = some (cl "version: ", verStr a b c, post) := by
  have hdot : ('.' :: (natStr b ++ ('.' :: (natStr c ++ post)))).takeWhile Char.isDigit = [] :=
    takeWhile_nil_of_head _ _ _ (by decide)
  have hdot2 : ('.' :: (natStr c ++ post)).takeWhile Char.isDigit = [] :=
    takeWhile_nil_of_head _ _ _ (by decide)
  have hA := takeWhile_append_all Char.isDigit (natStr a)
    ('.' :: (natStr b ++ ('.' :: (natStr c ++ post)))) (natStr_spec a).1 hdot
  have hB := takeWhile_append_all Char.isDigit (natStr b)
    ('.' :: (natStr c ++ post)) (natStr_spec b).1 hdot2
  have hC := takeWhile_append_all Char.isDigit (natStr c) post (natStr_spec c).1 hpost
  have hexp : verStr a b c ++ post
      = natStr a ++ ('.' :: (natStr b ++ ('.' :: (natStr c ++ post)))) := by
    unfold verStr
    simp [List.append_assoc]
  obtain ⟨a0, A1, hA0, ha0d⟩ := natStr_head_digit a
  have ha0s : isPySpace a0 = false := digit_not_space a0 ha0d
  have hsp1 : (verStr a b c ++ post).takeWhile isPySpace = [] := by
    rw [hexp, hA0, List.cons_append]
    exact takeWhile_nil_of_head _ _ _ ha0s
  have htk : (' ' :: (verStr a b c ++ post)).takeWhile isPySpace = [' '] := by
    rw [List.takeWhile_cons, if_pos (by decide), hsp1]
  have hdr : (' ' :: (verStr a b c ++ post)).dropWhile isPySpace = verStr a b c ++ post := by
    rw [List.dropWhile_cons, if_pos (by decide)]
    exact dropWhile_eq_self_of_takeWhile_nil _ _ hsp1
  have hd1 : ((' ' :: (verStr a b c ++ post)).dropWhile isPySpace).takeWhile Char.isDigit ≠ [] := by
    rw [hdr, hexp, hA.1]
    exact (natStr_spec a).2.1
  have hT2 : ((' ' :: (verStr a b c ++ post)).dropWhile isPySpace).dropWhile Char.isDigit
      = '.' :: (natStr b ++ ('.' :: (natStr c ++ post))) := by
    rw [hdr, hexp, hA.2]
  have hd2 : (natStr b ++ ('.' :: (natStr c ++ post))).takeWhile Char.isDigit ≠ [] := by
    rw [hB.1]
    exact (natStr_spec b).2.1
  have hT4 : (natStr b ++ ('.' :: (natStr c ++ post))).dropWhile Char.isDigit
      = '.' :: (natStr c ++ post) := hB.2
  have hd3 : (natStr c ++ post).takeWhile Char.isDigit ≠ [] := by
    rw [hC.1]
    exact (natStr_spec c).2.1
  have hmac := matchAfterColon_some (' ' :: (verStr a b c ++ post)) hd1
    (natStr b ++ ('.' :: (natStr c ++ post))) hT2 hd2 (natStr c ++ post) hT4 hd3
  rw [htk, hdr, hexp, hA.1, hB.1, hC.1, hC.2] at hmac
  have hkey : cl "version: " = verKey ++ [' '] := by decide
  have hlen : verKey.length = 8 := by decide
  rw [hkey, List.append_assoc]
  unfold tryMatch
  have h8 : (verKey ++ ([' '] ++ (verStr a b c ++ post))).take 8 = verKey := by
    rw [← hlen, List.take_left]
  have hdrop : (verKey ++ ([' '] ++ (verStr a b c ++ post))).drop 8
      = [' '] ++ (verStr a b c ++ post) := by
    rw [← hlen, List.drop_left]
  rw [if_pos h8, hdrop, List.singleton_append, hexp, hmac]
  rfl

lemma matchAfterColon_decomp (t ws ds rest : List Char)
    (h : matchAfterColon t = some (ws, ds, rest)) :
    t = ws ++ (ds ++ rest) ∧ (∀ x ∈ ws, isPySpace x = true) ∧
    ∃ d1 d2 d3, ds = d1 ++ ('.' :: (d2 ++ ('.' :: d3))) ∧
      d1 ≠ [] ∧ d2 ≠ [] ∧ d3 ≠ [] ∧
      (∀ x ∈ d1, x.isDigit = true) ∧ (∀ x ∈ d2, x.isDigit = true) ∧
      (∀ x ∈ d3, x.isDigit = true) := by
  unfold matchAfterColon at h
  by_cases hd1 : (t.dropWhile isPySpace).takeWhile Char.isDigit = []
  · rw [if_pos hd1] at h
    simp at h
  · rw [if_neg hd1] at h
    cases hT2 : (t.dropWhile isPySpace).dropWhile Char.isDigit with
    | nil =>
      rw [hT2] at h
      simp at h
    | cons c2 T3 =>
      rw [hT2] at h
      by_cases hc2 : c2 = '.'
      case neg => simp [hc2] at h
      case pos =>
        subst hc2
        by_cases hd2 : T3.takeWhile Char.isDigit = []
        · simp [hd2, -List.takeWhile_eq_nil_iff] at h
        · cases hT4 : T3.dropWhile Char.isDigit with
          | nil => simp [hd2, hT4, -List.takeWhile_eq_nil_iff] at h
          | cons c4 T5 =>
            by_cases hc4 : c4 = '.'
            case neg => simp [hd2, hT4, hc4, -List.takeWhile_eq_nil_iff] at h
            case pos =>
              subst hc4
              by_cases hd3 : T5.takeWhile Char.isDigit = []
              · simp [hd2, hT4, hd3, -List.takeWhile_eq_nil_iff] at h
              · simp [hd2, hT4, hd3, -List.takeWhile_eq_nil_iff] at h
                obtain ⟨hws, hds, hrest⟩ := h
                refine ⟨?_, ?_, (t.dropWhile isPySpace).takeWhile Char.isDigit,
                  T3.takeWhile Char.isDigit, T5.takeWhile Char.isDigit, hds.symm,
                  hd1, hd2, hd3, ?_, ?_, ?_⟩
                · rw [← hws, ← hds, ← hrest]
                  have e1 : t = t.takeWhile isPySpace ++ t.dropWhile isPySpace :=
                    (List.takeWhile_append_dropWhile isPySpace t).symm
                  have e2 : t.dropWhile isPySpace
                      = (t.dropWhile isPySpace).takeWhile Char.isDigit
                        ++ ('.' :: T3) := by
                    rw [← hT2]
                    exact (List.takeWhile_append_dropWhile Char.isDigit _).symm
                  have e3 : T3 = T3.takeWhile Char.isDigit ++ ('.' :: T5) := by
                    rw [← hT4]
                    exact (List.takeWhile_append_dropWhile Char.isDigit T3).symm
                  have e4 : T5 = T5.takeWhile Char.isDigit
                      ++ T5.dropWhile Char.isDigit :=
                    (List.takeWhile_append_dropWhile Char.isDigit T5).symm
                  conv_lhs => rw [e1, e2, e3, e4]
                  simp [List.append_assoc]
                · intro x hx
                  rw [← hws] at hx
                  exact List.mem_takeWhile_imp hx
                · intro x hx
                  exact List.mem_takeWhile_imp hx
                · intro x hx
                  exact List.mem_takeWhile_imp hx
                · intro x hx
                  exact List.mem_takeWhile_imp hx

lemma tryMatch_decomp (s g1 g2 rest : List Char) (h : tryMatch s = some (g1, g2, rest)) :
    s = g1 ++ (g2 ++ rest) ∧
    (∃ ws, g1 = verKey ++ ws ∧ ∀ x ∈ ws, isPySpace x = true) ∧
    (∃ d1 d2 d3, g2 = d1 ++ ('.' :: (d2 ++ ('.' :: d3))) ∧
      d1 ≠ [] ∧ d2 ≠ [] ∧ d3 ≠ [] ∧
      (∀ x ∈ d1, x.isDigit = true) ∧ (∀ x ∈ d2, x.isDigit = true) ∧
      (∀ x ∈ d3, x.isDigit = true)) := by
  unfold tryMatch at h
  by_cases h8 : s.take 8 = verKey
  · rw [if_pos h8] at h
    cases hm : matchAfterColon (s.drop 8) with
    | none =>
      rw [hm] at h
      exact Option.noConfusion h
    | some r =>
      obtain ⟨ws, ds, rest2⟩ := r
      rw [hm] at h
      simp only [Option.map_some', Option.some.injEq, Prod.mk.injEq] at h
      obtain ⟨hg1, hg2, hrest⟩ := h
      obtain ⟨hdec, hwsp, hds⟩ := matchAfterColon_decomp _ _ _ _ hm
      refine ⟨?_, ⟨ws, hg1.symm, hwsp⟩, ?_⟩
      · calc s = s.take 8 ++ s.drop 8 := (List.take_append_drop 8 s).symm
          _ = verKey ++ (ws ++ (ds ++ rest2)) := by rw [h8, hdec]
          _ = g1 ++ (g2 ++ rest) := by
              rw [← hg1, ← hg2, ← hrest]
              simp [List.append_assoc]
      · rw [← hg2]
        exact hds
  · rw [if_neg h8] at h
    simp at h

lemma findSub_sound (l : List Char) : ∀ (flag : Bool) (pre g1 g2 rest : List Char),
    findSub l flag = some (pre, g1, g2, rest) →
    l = pre ++ (g1 ++ (g2 ++ rest)) ∧ tryMatch (g1 ++ (g2 ++ rest)) = some (g1, g2, rest) ∧
    ((pre = [] ∧ flag = true) ∨ pre.getLast? = some '\n') := by
  induction l with
  | nil =>
    intro flag pre g1 g2 rest h
    simp [findSub] at h
  | cons ch cs ih =>
    intro flag pre g1 g2 rest h
    rw [findSub_cons] at h
    cases ht : (if flag then tryMatch (ch :: cs) else none) with
    | some r =>
      obtain ⟨a1, a2, a3⟩ := r
      rw [ht] at h
      simp only [Option.some.injEq, Prod.mk.injEq] at h
      obtain ⟨hp, h1, h2, h3⟩ := h
      subst hp; subst h1; subst h2; subst h3
      have hfl : flag = true := by
        by_cases hx : flag = true
        · exact hx
        · have : flag = false := by
            cases flag
            · rfl
            · exact absurd rfl hx
          rw [this, if_neg (by simp)] at ht
          cases ht
      subst hfl
      rw [if_pos rfl] at ht
      have hdec := (tryMatch_decomp _ _ _ _ ht).1
      refine ⟨by rw [List.nil_append, ← hdec], ?_, Or.inl ⟨rfl, rfl⟩⟩
      rw [← hdec]
      exact ht
    | none =>
      rw [ht] at h
      cases hf : findSub cs (ch == '\n') with
      | none =>
        rw [hf] at h
        simp at h
      | some r =>
        obtain ⟨pre2, b1, b2, b3⟩ := r
        rw [hf] at h
        simp only [Option.some.injEq, Prod.mk.injEq] at h
        obtain ⟨hp, h1, h2, h3⟩ := h
        obtain ⟨hcs, htm, hpos⟩ := ih (ch == '\n') pre2 b1 b2 b3 hf
        subst hp; subst h1; subst h2; subst h3
        refine ⟨by rw [List.cons_append, ← hcs], htm, Or.inr ?_⟩
        rcases hpos with ⟨hpre2, hbeq⟩ | hlast
        · subst hpre2
          rw [eq_of_beq hbeq]
          rfl
        · rw [getLast?_cons_ne_nil ch pre2 (ne_nil_of_getLast? pre2 '\n' hlast)]
          exact hlast

lemma head_digit_of_ne_nil (d : List Char) (hne : d ≠ []) (hall : ∀ x ∈ d, x.isDigit = true) :
    ∃ e E, d = e :: E ∧ Char.isDigit e = true := by
  cases d with
  | nil => exact absurd rfl hne
  | cons e E => exact ⟨e, E, rfl, hall e (by simp)⟩

lemma tryMatch_complete (ws d1 d2 d3 rest : List Char)
    (hws : ∀ x ∈ ws, isPySpace x = true)
    (hd1 : d1 ≠ []) (h1 : ∀ x ∈ d1, x.isDigit = true)
    (hd2 : d2 ≠ []) (h2 : ∀ x ∈ d2, x.isDigit = true)
    (hd3 : d3 ≠ []) (h3 : ∀ x ∈ d3, x.isDigit = true) :
    tryMatch (verKey ++ (ws ++ (d1 ++ ('.' :: (d2 ++ ('.' :: (d3 ++ rest))))))) ≠ none := by
  have hlen : verKey.length = 8 := by decide
  have h8 : (verKey ++ (ws ++ (d1 ++ ('.' :: (d2 ++ ('.' :: (d3 ++ rest))))))).take 8
      = verKey := by
    rw [← hlen, List.take_left]
  have hdrop : (verKey ++ (ws ++ (d1 ++ ('.' :: (d2 ++ ('.' :: (d3 ++ rest))))))).drop 8
      = ws ++ (d1 ++ ('.' :: (d2 ++ ('.' :: (d3 ++ rest))))) := by
    rw [← hlen, List.drop_left]
  unfold tryMatch
  rw [if_pos h8, hdrop]
  obtain ⟨e1, E1, hE1, he1⟩ := head_digit_of_ne_nil d1 hd1 h1
  have hsp0 : (d1 ++ ('.' :: (d2 ++ ('.' :: (d3 ++ rest))))).takeWhile isPySpace = [] := by
    rw [hE1, List.cons_append]
    exact takeWhile_nil_of_head _ _ _ (digit_not_space e1 he1)
  obtain ⟨hwt, hwd⟩ := takeWhile_append_all isPySpace ws _ hws hsp0
  obtain ⟨ht1, hD1⟩ := takeWhile_append_all Char.isDigit d1
    ('.' :: (d2 ++ ('.' :: (d3 ++ rest)))) h1 (takeWhile_nil_of_head _ _ _ (by decide))
  obtain ⟨ht2, hD2⟩ := takeWhile_append_all Char.isDigit d2
    ('.' :: (d3 ++ rest)) h2 (takeWhile_nil_of_head _ _ _ (by decide))
  obtain ⟨e3, E3, hE3, he3⟩ := head_digit_of_ne_nil d3 hd3 h3
  have hd3m : (d3 ++ rest).takeWhile Char.isDigit ≠ [] := by
    rw [hE3, List.cons_append, List.takeWhile_cons, if_pos (by simp [he3])]
    simp
  have hA1 : ((ws ++ (d1 ++ ('.' :: (d2 ++ ('.' :: (d3 ++ rest)))))).dropWhile
      isPySpace).takeWhile Char.isDigit ≠ [] := by
    rw [hwd, ht1]
    exact hd1
  have hT2 : ((ws ++ (d1 ++ ('.' :: (d2 ++ ('.' :: (d3 ++ rest)))))).dropWhile
      isPySpace).dropWhile Char.isDigit = '.' :: (d2 ++ ('.' :: (d3 ++ rest))) := by
    rw [hwd, hD1]
  have hA2 : (d2 ++ ('.' :: (d3 ++ rest))).takeWhile Char.isDigit ≠ [] := by
    rw [ht2]
    exact hd2
  have hmac := matchAfterColon_some (ws ++ (d1 ++ ('.' :: (d2 ++ ('.' :: (d3 ++ rest)))))) hA1
    (d2 ++ ('.' :: (d3 ++ rest))) hT2 hA2 (d3 ++ rest) hD2 hd3m
  rw [hmac]
  simp

/-- Some line of `content` matches `version:\s*[0-9]+\.[0-9]+\.[0-9]+` anchored
at a line start (the position opens the string or follows a newline). -/
def hasVersionLine (content : List Char) : Prop :=
  ∃ pre ws d1 d2 d3 rest,
    content = pre ++ (verKey ++ (ws ++ (d1 ++ ('.' :: (d2 ++ ('.' :: (d3 ++ rest))))))) ∧
    (pre = [] ∨ pre.getLast? = some '\n') ∧
    (∀ x ∈ ws, isPySpace x = true) ∧
    d1 ≠ [] ∧ (∀ x ∈ d1, x.isDigit = true) ∧
    d2 ≠ [] ∧ (∀ x ∈ d2, x.isDigit = true) ∧
    d3 ≠ [] ∧ (∀ x ∈ d3, x.isDigit = true)

lemma readVersion_none_iff (content : List Char) :
    readVersion content = none ↔ ¬ hasVersionLine content := by
  constructor
  · intro h hline
    obtain ⟨pre, ws, d1, d2, d3, rest, hdec, hpre, hws, hd1, h1, hd2, h2, hd3, h3⟩ := hline
    have hnone : findSub content true = none := by
      unfold readVersion at h
      cases hf : findSub content true with
      | none => rfl
      | some r =>
        obtain ⟨p2, a1, a2, a3⟩ := r
        rw [hf] at h
        simp at h
    rw [hdec] at hnone
    have hsplit := findSub_split_none pre _ true hnone
    have hfa : flagAfter pre true = true := by
      rcases hpre with h0 | h0
      · subst h0
        rfl
      · unfold flagAfter
        rw [h0]
        rfl
    rw [hfa] at hsplit
    have hvk : verKey ++ (ws ++ (d1 ++ ('.' :: (d2 ++ ('.' :: (d3 ++ rest))))))
        = 'v' :: (cl "ersion:" ++ (ws ++ (d1 ++ ('.' :: (d2 ++ ('.' :: (d3 ++ rest))))))) := by
      rw [show verKey = 'v' :: cl "ersion:" from by decide, List.cons_append]
    rw [hvk] at hsplit
    obtain ⟨htm, _⟩ := findSub_cons_none _ _ _ hsplit
    have htm2 := htm rfl
    rw [← hvk] at htm2
    exact tryMatch_complete ws d1 d2 d3 rest hws hd1 h1 hd2 h2 hd3 h3 htm2
  · intro h
    cases hf : findSub content true with
    | none =>
      unfold readVersion
      rw [hf]
    | some r =>
      obtain ⟨pre, g1, g2, rest⟩ := r
      exfalso
      apply h
      obtain ⟨hdec, htm, hpos⟩ := findSub_sound content true pre g1 g2 rest hf
      obtain ⟨_, ⟨ws, hg1, hws⟩, ⟨d1, d2, d3, hg2, hd1, hd2, hd3, h1, h2, h3⟩⟩ :=
        tryMatch_decomp _ _ _ _ htm
      refine ⟨pre, ws, d1, d2, d3, rest, ?_, ?_, hws, hd1, h1, hd2, h2, hd3, h3⟩
      · rw [hdec, hg1, hg2]
        simp [List.append_assoc]
      · rcases hpos with ⟨hp, _⟩ | hp
        · exact Or.inl hp
        · exact Or.inr hp

lemma replaceVersion_error_kind (content newV : List Char) (err : RunError)
    (h : replaceVersion content newV = Except.error err) :
    err = RunError.writeVerification := by
  unfold replaceVersion at h
  by_cases hc : subVersion content newV = content
  · rw [if_pos hc] at h
    injection h with h2
    exact h2.symm
  · rw [if_neg hc] at h
    exact Except.noConfusion h

lemma mainContinue_errorMsg (w : World) (cur : List Char) :
    (mainContinue w cur).errorMsg ≠ some RunError.manifestFormat := by
  unfold mainContinue
  by_cases hcm : w.commits = []
  · rw [if_pos hcm]
    simp
  · rw [if_neg hcm]
    cases hbv : bumpVersion cur (determineBump w.commits) with
    | none => simp
    | some newV =>
      cases hrp : replaceVersion w.pubspec newV with
      | error e =>
        have he := replaceVersion_error_kind _ _ _ hrp
        subst he
        simp [hrp]
      | ok newPub =>
        simp [hrp]

/-- C7: the run aborts with the `ManifestFormatError` kind exactly when no
line of the manifest matches `version: X.Y.Z` anchored at a line start; when a
matching line exists, the search succeeds and the run proceeds from the
version string found there. -/
theorem readVersion_spec (w : World) :
    ((mainRun w).errorMsg = some RunError.manifestFormat ↔ ¬ hasVersionLine w.pubspec) ∧
    (∀ v, readVersion w.pubspec = some v → mainRun w = mainContinue w v) := by
  constructor
  · cases hrv : readVersion w.pubspec with
    | none =>
      constructor
      · intro _
        exact (readVersion_none_iff w.pubspec).mp hrv
      · intro _
        unfold mainRun
        rw [hrv]
    | some v =>
      constructor
      · intro hmsg
        exfalso
        unfold mainRun at hmsg
        rw [hrv] at hmsg
        exact mainContinue_errorMsg w v hmsg
      · intro hnl
        exfalso
        have h0 : readVersion w.pubspec = none := (readVersion_none_iff w.pubspec).mpr hnl
        rw [hrv] at h0
        cases h0
  · intro v hv
    unfold mainRun
    rw [hv]

/-- Witness for `readVersion_spec`: a manifest with a version line proceeds. -/
theorem readVersion_spec_witness :
    mainRun ⟨cl "version: 1.2.3\n", none, none, [], cl "D"⟩
      = mainContinue ⟨cl "version: 1.2.3\n", none, none, [], cl "D"⟩ (cl "1.2.3") :=
  (readVersion_spec ⟨cl "version: 1.2.3\n", none, none, [], cl "D"⟩).2 (cl "1.2.3") (by decide)

lemma mainRun_writeVerification_frame (w : World)
    (hmsg : (mainRun w).errorMsg = some RunError.writeVerification) :
    (mainRun w).pubspec = w.pubspec ∧ (mainRun w).changelog = w.changelog := by
  unfold mainRun at hmsg ⊢
  cases hrv : readVersion w.pubspec with
  | none => simp [hrv] at hmsg
  | some cur =>
    rw [hrv] at hmsg
    change (mainContinue w cur).errorMsg = some RunError.writeVerification at hmsg
    change (mainContinue w cur).pubspec = w.pubspec ∧ (mainContinue w cur).changelog = w.changelog
    unfold mainContinue at hmsg ⊢
    by_cases hcm : w.commits = []
    · simp [hcm] at hmsg
    · rw [if_neg hcm] at hmsg ⊢
      cases hbv : bumpVersion cur (determineBump w.commits) with
      | none => simp [hbv] at hmsg
      | some newV =>
        cases hrp : replaceVersion w.pubspec newV with
        | error e => simp [hbv, hrp]
        | ok newPub => simp [hbv, hrp] at hmsg

/-- C5: `_replace_version` raises exactly when the substitution left the file
content unchanged, which happens exactly when no line matches the version
pattern or the matched version already equals the replacement; the only error
it raises is the write-verification kind, and a run aborted by it leaves the
manifest (and the changelog) untouched. -/
theorem replaceVersion_noop_spec (w : World) (content newV : List Char) :
    ((∃ err, replaceVersion content newV = Except.error err) ↔
      subVersion content newV = content) ∧
    (subVersion content newV = content ↔
      (findSub content true = none ∨
        ∃ pre g1 rest, findSub content true = some (pre, g1, newV, rest))) ∧
    (∀ err, replaceVersion content newV = Except.error err →
      err = RunError.writeVerification) ∧
    ((mainRun w).errorMsg = some RunError.writeVerification →
      (mainRun w).pubspec = w.pubspec ∧ (mainRun w).changelog = w.changelog) := by
  refine ⟨?_, ?_, fun err h => replaceVersion_error_kind content newV err h,
    fun hmsg => mainRun_writeVerification_frame w hmsg⟩
  · by_cases hc : subVersion content newV = content
    · exact ⟨fun _ => hc, fun _ => ⟨RunError.writeVerification, by
        unfold replaceVersion
        rw [if_pos hc]⟩⟩
    · constructor
      · intro he
        obtain ⟨err, herr⟩ := he
        unfold replaceVersion at herr
        rw [if_neg hc] at herr
        exact Except.noConfusion herr
      · intro h
        exact absurd h hc
  · cases hf : findSub content true with
    | none =>
      constructor
      · intro _
        exact Or.inl rfl
      · intro _
        unfold subVersion
        rw [hf]
    | some r =>
      obtain ⟨pre, g1, g2, rest⟩ := r
      have hdec := (findSub_sound content true pre g1 g2 rest hf).1
      have hsub : subVersion content newV = pre ++ (g1 ++ (newV ++ rest)) := by
        unfold subVersion
        rw [hf]
      constructor
      · intro he
        right
        have he2 : pre ++ (g1 ++ (newV ++ rest)) = pre ++ (g1 ++ (g2 ++ rest)) := by
          rw [← hsub, he, hdec]
        have h3 := List.append_cancel_left (List.append_cancel_left he2)
        have h4 : newV = g2 := List.append_cancel_right h3
        exact ⟨pre, g1, rest, by rw [h4]⟩
      · intro hor
        rcases hor with h0 | ⟨pre2, g12, rest2, hsome⟩
        · exact Option.noConfusion h0
        · simp only [Option.some.injEq, Prod.mk.injEq] at hsome
          obtain ⟨hpq, hg1q, hg2q, hrq⟩ := hsome
          rw [hsub, ← hg2q, ← hdec]

/-- Witness for `replaceVersion_noop_spec` at a matching manifest. -/
theorem replaceVersion_noop_spec_witness :
    subVersion (cl "version: 1.2.3\n") (cl "1.2.3") = cl "version: 1.2.3\n" := by
  have h := (replaceVersion_noop_spec ⟨[], none, none, [], []⟩
    (cl "version: 1.2.3\n") (cl "1.2.3")).2.1
  apply h.mpr
  right
  exact ⟨[], cl "version: ", cl "\n", by decide⟩

/-- C3: when the version was read successfully and there are no eligible
commits, the run emits `skip=true` to the sink, leaves the manifest and the
changelog untouched, and exits 0; with a configured non-empty sink path the
appended text is the literal line `skip=true`. -/
theorem mainRun_skip_spec (w : World) (cur : List Char)
    (hread : readVersion w.pubspec = some cur)
    (hempty : w.commits = []) :
    mainRun w = ⟨w.pubspec, w.changelog, setOutput w.ghOutput (cl "skip") (cl "true"), 0, none⟩ ∧
    (∀ p, w.ghOutput = some p → p ≠ [] → (mainRun w).sinkAppend = cl "skip=true\n") := by
  have hmain : mainRun w = ⟨w.pubspec, w.changelog,
      setOutput w.ghOutput (cl "skip") (cl "true"), 0, none⟩ := by
    have e : mainRun w = mainContinue w cur := by
      unfold mainRun
      rw [hread]
    rw [e]
    unfold mainContinue
    rw [if_pos hempty]
  refine ⟨hmain, ?_⟩
  intro p hp hpne
  rw [hmain]
  show setOutput w.ghOutput (cl "skip") (cl "true") = cl "skip=true\n"
  rw [hp]
  simp only [setOutput]
  rw [if_neg hpne, if_neg (by decide)]
  decide

/-- Witness for `mainRun_skip_spec` on a concrete world with no commits. -/
theorem mainRun_skip_spec_witness :
    mainRun ⟨cl "version: 0.1.0\n", some (cl "old"), some (cl "out"), [], cl "2026-10-12"⟩
      = ⟨cl "version: 0.1.0\n", some (cl "old"), cl "skip=true\n", 0, none⟩ := by
  have h := mainRun_skip_spec
    ⟨cl "version: 0.1.0\n", some (cl "old"), some (cl "out"), [], cl "2026-10-12"⟩
    (cl "0.1.0") (by decide) rfl
  rw [h.1]
  decide

lemma findSub_versionLine (pre : List Char) (a b c : Nat) (post : List Char)
    (hpre : pre = [] ∨ pre.getLast? = some '\n')
    (hnm : findSub pre true = none)
    (hpost : post.takeWhile Char.isDigit = []) :
    findSub (pre ++ (cl "version: " ++ (verStr a b c ++ post))) true
      = some (pre, cl "version: ", verStr a b c, post) := by
  apply findSub_append_match pre true _ _ _ _ _ _ hnm (tryMatch_versionLine a b c post hpost)
  · intro _
    rfl
  · intro hne
    rcases hpre with h | h
    · exact absurd h hne
    · exact h

/-- C4 counterexample: a manifest whose FIRST matching line is not
`version: 1.2.3` — here `version: 0.1.0` comes first — has its first line
rewritten instead; the line `version: 1.2.3` is left as it is, so the claimed
output (only the `1.2.3` line changed) is not produced. -/
theorem replaceVersion_counterexample :
    replaceVersion (cl "version: 0.1.0\nversion: 1.2.3\n") (cl "1.2.4")
      = Except.ok (cl "version: 1.2.4\nversion: 1.2.3\n") ∧
    replaceVersion (cl "version: 0.1.0\nversion: 1.2.3\n") (cl "1.2.4")
      ≠ Except.ok (cl "version: 0.1.0\nversion: 1.2.4\n") := by
  constructor
  · rfl
  · intro h
    rw [show replaceVersion (cl "version: 0.1.0\nversion: 1.2.3\n") (cl "1.2.4")
        = Except.ok (cl "version: 1.2.4\nversion: 1.2.3\n") from rfl] at h
    injection h with h2
    exact absurd h2 (by decide)

/-- C4 (amended): for every manifest content in which `version: 1.2.3` is a
line (anchored at a line start, terminated by a newline or the end of file)
and no earlier position matches the version pattern, a patch bump of `1.2.3`
produces `1.2.4` and the rewrite yields the same file with `version: 1.2.4` on
that line and every other byte — including the `version: ` prefix of the line —
unchanged. -/
theorem replaceVersion_spec (pre post : List Char)
    (hpre : pre = [] ∨ pre.getLast? = some '\n')
    (hnm : findSub pre true = none)
    (hpost : post = [] ∨ post.head? = some '\n') :
    bumpVersion (cl "1.2.3") (cl "patch") = some (cl "1.2.4") ∧
    replaceVersion (pre ++ (cl "version: 1.2.3" ++ post)) (cl "1.2.4")
      = Except.ok (pre ++ (cl "version: 1.2.4" ++ post)) := by
  have hpost2 : post.takeWhile Char.isDigit = [] := by
    rcases hpost with h | h
    · rw [h]
      rfl
    · cases post with
      | nil => rfl
      | cons x t =>
        simp only [List.head?_cons, Option.some.injEq] at h
        subst h
        exact takeWhile_nil_of_head _ _ _ (by decide)
  have hsplit : cl "version: 1.2.3" ++ post = cl "version: " ++ (verStr 1 2 3 ++ post) := by
    rw [show cl "version: 1.2.3" = cl "version: " ++ verStr 1 2 3 from by decide,
      List.append_assoc]
  have hfind := findSub_versionLine pre 1 2 3 post hpre hnm hpost2
  have hsub : subVersion (pre ++ (cl "version: " ++ (verStr 1 2 3 ++ post))) (cl "1.2.4")
      = pre ++ (cl "version: " ++ (cl "1.2.4" ++ post)) := by
    unfold subVersion
    rw [hfind]
  have hne : subVersion (pre ++ (cl "version: " ++ (verStr 1 2 3 ++ post))) (cl "1.2.4")
      ≠ pre ++ (cl "version: " ++ (verStr 1 2 3 ++ post)) := by
    rw [hsub]
    intro hbad
    have h1 := List.append_cancel_left (List.append_cancel_left hbad)
    have h2 : cl "1.2.4" = verStr 1 2 3 := List.append_cancel_right h1
    exact absurd h2 (by decide)
  refine ⟨by decide, ?_⟩
  rw [hsplit]
  unfold replaceVersion
  rw [if_neg hne, hsub, show cl "version: " ++ (cl "1.2.4" ++ post)
      = cl "version: 1.2.4" ++ post from by
    rw [← List.append_assoc, show cl "version: " ++ cl "1.2.4" = cl "version: 1.2.4" from by
      decide]]

/-- Witness for `replaceVersion_spec` on a concrete manifest. -/
theorem replaceVersion_spec_witness :
    bumpVersion (cl "1.2.3") (cl "patch") = some (cl "1.2.4") ∧
    replaceVersion (cl "name: demo\nversion: 1.2.3\ndescription: x\n") (cl "1.2.4")
      = Except.ok (cl "name: demo\nversion: 1.2.4\ndescription: x\n") := by
  have h := replaceVersion_spec (cl "name: demo\n") (cl "\ndescription: x\n")
    (Or.inr (by decide)) (by decide) (Or.inr rfl)
  refine ⟨h.1, ?_⟩
  rw [show cl "name: demo\nversion: 1.2.3\ndescription: x\n"
      = cl "name: demo\n" ++ (cl "version: 1.2.3" ++ cl "\ndescription: x\n") from by decide,
    h.2,
    show cl "name: demo\n" ++ (cl "version: 1.2.4" ++ cl "\ndescription: x\n")
      = cl "name: demo\nversion: 1.2.4\ndescription: x\n" from by decide]

/-- C10: when the manifest has two (or more) lines matching `version: X.Y.Z`
at line starts — the first match being `version: A.B.C`, a later line
`version: D.E.F` living inside the untouched tail — the version read is the
first line's `A.B.C`, and substitution rewrites only that first occurrence,
leaving the entire tail, the later matching line included, byte-for-byte
unchanged. -/
theorem firstMatch_spec (pre mid post : List Char) (a b c d e f : Nat) (newV : List Char)
    (hpre : pre = [] ∨ pre.getLast? = some '\n')
    (hnm : findSub pre true = none)
    (hmid : mid.getLast? = some '\n') :
    readVersion (pre ++ (cl "version: " ++ (verStr a b c
        ++ ('\n' :: (mid ++ (cl "version: " ++ (verStr d e f ++ post))))))) = some (verStr a b c) ∧
    subVersion (pre ++ (cl "version: " ++ (verStr a b c
        ++ ('\n' :: (mid ++ (cl "version: " ++ (verStr d e f ++ post))))))) newV
      = pre ++ (cl "version: " ++ (newV
        ++ ('\n' :: (mid ++ (cl "version: " ++ (verStr d e f ++ post)))))) := by
  have hpost : ('\n' :: (mid ++ (cl "version: " ++ (verStr d e f ++ post)))).takeWhile
      Char.isDigit = [] := takeWhile_nil_of_head _ _ _ (by decide)
  have h := findSub_versionLine pre a b c _ hpre hnm hpost
  constructor
  · unfold readVersion
    rw [h]
  · unfold subVersion
    rw [h]

/-- Witness for `firstMatch_spec` on a concrete two-line manifest. -/
theorem firstMatch_spec_witness :
    readVersion (cl "version: 1.2.3\nstuff\nversion: 9.8.7\n") = some (cl "1.2.3") ∧
    subVersion (cl "version: 1.2.3\nstuff\nversion: 9.8.7\n") (cl "2.0.0")
      = cl "version: 2.0.0\nstuff\nversion: 9.8.7\n" := by
  have h := firstMatch_spec [] (cl "stuff\n") ['\n'] 1 2 3 9 8 7 (cl "2.0.0")
    (Or.inl rfl) rfl (by decide)
  constructor
  · rw [show cl "version: 1.2.3\nstuff\nversion: 9.8.7\n"
        = [] ++ (cl "version: " ++ (verStr 1 2 3
          ++ ('\n' :: (cl "stuff\n" ++ (cl "version: " ++ (verStr 9 8 7 ++ ['\n']))))))
      from by decide, h.1]
    decide
  · rw [show cl "version: 1.2.3\nstuff\nversion: 9.8.7\n"
        = [] ++ (cl "version: " ++ (verStr 1 2 3
          ++ ('\n' :: (cl "stuff\n" ++ (cl "version: " ++ (verStr 9 8 7 ++ ['\n']))))))
      from by decide, h.2]
    decide

lemma joinNL_cons_cons (x y : List Char) (rest : List (List Char)) :
    joinNL (x :: y :: rest) = x ++ '\n' :: joinNL (y :: rest) := rfl

lemma joinNL_append_blank (l : List (List Char)) (hl : l ≠ []) :
    joinNL (l ++ [[]]) = joinNL l ++ ['\n'] := by
  induction l with
  | nil => exact absurd rfl hl
  | cons x rest ih =>
    cases rest with
    | nil => rfl
    | cons y rest2 =>
      have ih2 := ih (by simp)
      rw [List.cons_append] at ih2
      rw [List.cons_append, List.cons_append, joinNL_cons_cons, ih2, joinNL_cons_cons,
        List.append_assoc, List.cons_append]

lemma joinNL_entry (hdr : List Char) (l : List (List Char)) (hl : l ≠ []) :
    joinNL (hdr :: [] :: (l ++ [[]])) = hdr ++ '\n' :: '\n' :: (joinNL l ++ ['\n']) := by
  obtain ⟨x, xs, rfl⟩ : ∃ x xs, l = x :: xs := by
    cases l with
    | nil => exact absurd rfl hl
    | cons x xs => exact ⟨x, xs, rfl⟩
  rw [List.cons_append, joinNL_cons_cons, joinNL_cons_cons, List.nil_append,
    ← List.cons_append, joinNL_append_blank (x :: xs) (by simp)]

/-- C6 counterexample: with existing changelog content `"old\n"` (a trailing
newline), the written file is NOT the new entry followed by a blank line and
the existing content: the code strips the previous content first, so the file
ends in `old` and the original content `"old\n"` is not even a suffix of it. -/
theorem updateChangelog_counterexample :
    (updateChangelogContent (some (cl "old\n")) (cl "0.5.0") (cl "2026-10-12")
        [(cl "feat: add X", []), (cl "fix: bug", [])]).1
      ≠ cl "## 0.5.0 - 2026-10-12\n\n- feat: add X\n- fix: bug\n" ++ (cl "\n\n" ++ cl "old\n") ∧
    (cl "old\n").isSuffixOf
      (updateChangelogContent (some (cl "old\n")) (cl "0.5.0") (cl "2026-10-12")
        [(cl "feat: add X", []), (cl "fix: bug", [])]).1 = false ∧
    (updateChangelogContent (some (cl "old\n")) (cl "0.5.0") (cl "2026-10-12")
        [(cl "feat: add X", []), (cl "fix: bug", [])]).2
      = cl "## 0.5.0 - 2026-10-12\n\n- feat: add X\n- fix: bug\n" := by
  refine ⟨by decide, by decide, by decide⟩

/-- C6 (amended): for a non-empty commit list the update returns the entry —
header `## <version> - <date>`, a blank line, one `- <subject>` bullet per
commit in list order, newline-terminated — and writes the entry followed by
the previous content STRIPPED of leading and trailing whitespace, separated by
a blank line when the stripped content is non-empty; when it is empty (file
absent or whitespace-only) the entry is followed by a single newline.  An
empty commit list would instead produce the single bullet
`No notable changes`. -/
theorem updateChangelog_spec (prev : Option (List Char)) (v today : List Char)
    (commits : List Commit) (hne : commits ≠ []) :
    (updateChangelogContent prev v today commits).2
      = (cl "## " ++ v ++ cl " - " ++ today)
        ++ ('\n' :: '\n' :: (joinNL (commits.map (fun c => cl "- " ++ c.1)) ++ ['\n'])) ∧
    (updateChangelogContent prev v today commits).1
      = (updateChangelogContent prev v today commits).2
        ++ (if pyStrip (prev.getD []) = [] then ['\n']
            else '\n' :: '\n' :: pyStrip (prev.getD [])) ∧
    (updateChangelogContent none v today []).2
      = (cl "## " ++ v ++ cl " - " ++ today)
        ++ ('\n' :: '\n' :: (cl "- No notable changes" ++ ['\n'])) := by
  obtain ⟨c0, crest, rfl⟩ : ∃ c0 crest, commits = c0 :: crest := by
    cases commits with
    | nil => exact absurd rfl hne
    | cons c0 crest => exact ⟨c0, crest, rfl⟩
  refine ⟨?_, ?_, ?_⟩
  · show joinNL ((cl "## " ++ v ++ cl " - " ++ today) :: [] ::
        (((c0 :: crest).map (fun c => c.1)).map (fun b => cl "- " ++ b) ++ [[]])) = _
    rw [List.map_map]
    rw [show ((fun b => cl "- " ++ b) ∘ fun c : Commit => c.1)
        = (fun c : Commit => cl "- " ++ c.1) from rfl]
    exact joinNL_entry _ _ (by simp)
  · cases prev with
    | none => rfl
    | some p => rfl
  · rfl

/-- Witness for `updateChangelog_spec` at the §8 example of the spec. -/
theorem updateChangelog_spec_witness :
    (updateChangelogContent (some (cl "# Log")) (cl "0.5.0") (cl "2026-10-12")
        [(cl "feat: add X", []), (cl "fix: bug", [])]).1
      = cl "## 0.5.0 - 2026-10-12\n\n- feat: add X\n- fix: bug\n\n\n# Log" := by
  have h := updateChangelog_spec (some (cl "# Log")) (cl "0.5.0") (cl "2026-10-12")
    [(cl "feat: add X", []), (cl "fix: bug", [])] (by decide)
  rw [h.2.1, h.1]
  decide

/-- C8: the output emitter writes nothing when the sink environment variable
is unset (`none`) or empty; otherwise it appends exactly `key=value` plus a
newline when the value contains no newline, and the heredoc block
`key<<EOF`, the value, `EOF` (each newline-terminated) when it does. -/
theorem setOutput_spec (key value : List Char) :
    setOutput none key value = [] ∧
    setOutput (some []) key value = [] ∧
    (∀ p, p ≠ [] →
      setOutput (some p) key value =
        if value.contains '\n'
        then key ++ (cl "<<EOF\n" ++ (value ++ cl "\nEOF\n"))
        else key ++ ('=' :: (value ++ ['\n']))) := by
  refine ⟨rfl, rfl, ?_⟩
  intro p hp
  simp only [setOutput]
  rw [if_neg hp]

/-- Witness for `setOutput_spec` at a configured sink. -/
theorem setOutput_spec_witness :
    setOutput (some (cl "out")) (cl "version") (cl "1.2.3")
      = (if (cl "1.2.3").contains '\n'
         then cl "version" ++ (cl "<<EOF\n" ++ (cl "1.2.3" ++ cl "\nEOF\n"))
         else cl "version" ++ ('=' :: (cl "1.2.3" ++ ['\n']))) :=
  (setOutput_spec (cl "version") (cl "1.2.3")).2.2 (cl "out") (by decide)
